import Mathlib

/-!
Shallow embedding of the `just-a-stream` reactive stream library
(`JAStream` class, `src/index.ts`) and proofs about its operators.

The library is a push-based cold-stream abstraction: a stream wraps a
`generator` (producer) function that, given a listener callback, drives
zero or more synchronous invocations of it.  `subscribe` re-runs the
producer, updating the instance's `last` / `buffer` fields before each
listener call.  Operators (`filter`, `map`, `reduce`, `merge`,
`withLatestFrom`) wrap the parent producer lazily.

Because the producer callbacks mutate instance fields (`this.last`,
`this.buffer`) and closure-local cells (`acc` in `reduce`, `latest` in
`withLatestFrom`), the embedding threads an explicit world state `σ`
through every callback: a generator at world `σ` is a function
`(T → σ → σ) → σ → σ`, and a stream instance is a generator together
with a lens (`get`/`set`) addressing its own field record inside `σ`.
Local closure cells are modelled by enlarging the world with a product
component, initialised exactly where the source initialises the local.
-/

namespace JustAStream

universe u

/-- JavaScript `arr.slice(-n)` for a natural number `n`, as used by
`subscribe` (`this.buffer.slice(this.bufferSize * -1)`): for `n = 0` the
argument is `-0 = 0` and the whole array is kept; for `n ≥ 1` the last
`min n arr.length` elements are kept. -/
def jsSliceLast (l : List α) (n : Nat) : List α :=
  if n = 0 then l else l.drop (l.length - n)

/-- Options record of the constructor (`JAStreamOptions` in `src/index.ts`). -/
structure JAStreamOptions where
  useBuffer : Bool
  bufferSize : Nat

/-- The mutable instance fields of a `JAStream` object, with their
declared initial values (`src/index.ts`, class field initialisers). -/
structure StreamState (T : Type) where
  last : Option T := none
  useBuffer : Bool := false
  buffer : List T := []
  bufferSize : Nat := 1

/-- Constructor (`constructor(generator, options?)`): field record produced
for a fresh instance; when `options` is present, `useBuffer`/`bufferSize`
are overwritten from it, otherwise the field initialisers stand. -/
def initState (options : Option JAStreamOptions) : StreamState T :=
  match options with
  | none => {}
  | some o => { useBuffer := o.useBuffer, bufferSize := o.bufferSize }

/-- A producer (`DataGenerator<T>`) at world `σ`: it takes the emission
callback (a state transformer per value) and an initial world, and returns
the world after all of its synchronous emissions. -/
def GenAt (σ : Type) (T : Type) : Type := (T → σ → σ) → σ → σ

/-- A `JAStream` instance: its stored `generator` plus the lens addressing
its own field record inside the world `σ`. -/
structure JAStream (σ : Type) (T : Type) where
  gen : GenAt σ T
  get : σ → StreamState T
  set : StreamState T → σ → σ

/-- The state update performed by the emission callback that `subscribe`
hands to the generator, before it invokes the listener
(`src/index.ts` lines 65-70): `this.last = x`; then, if `this.useBuffer`,
`this.buffer.push(x)` followed by
`this.buffer = this.buffer.slice(this.bufferSize * -1)`. -/
def emitUpdate (ss : StreamState T) (x : T) : StreamState T :=
  let ss1 := { ss with last := some x }
  if ss1.useBuffer then
    { ss1 with buffer := jsSliceLast (ss1.buffer ++ [x]) ss1.bufferSize }
  else
    ss1

/-- `subscribe(listener)` (`src/index.ts` lines 64-73): runs the stored
generator once, with a callback that first updates this instance's fields
(`emitUpdate`) and then invokes the listener on the updated world. -/
def JAStream.subscribe (st : JAStream σ T) (listener : T → σ → σ) : σ → σ :=
  fun s => st.gen (fun x s => listener x (st.set (emitUpdate (st.get s) x) s)) s

/-- `getLast()`: returns the `last` field. -/
def getLast (ss : StreamState T) : Option T :=
  ss.last

/-- `getBuffer()` (`src/index.ts` lines 129-134): returns the buffer when
`useBuffer` is set, otherwise throws a configuration error. -/
def getBuffer (ss : StreamState T) : Except String (List T) :=
  if ss.useBuffer then
    Except.ok ss.buffer
  else
    Except.error "In order to use buffer you must specify it on the JAStreamOptions as useBuffer=boolean and bufferSize=number"

/-- Producer built by `JAStream.from(xs)`:
`(next) => { xs.forEach((x) => next(x)); }`. -/
def fromGen (xs : List T) : GenAt σ T :=
  fun next s => xs.foldl (fun s x => next x s) s

/-- Producer built by `filter(pred)`:
`(next) => { this.generator((x) => { if (pred(x)) next(x); }); }`,
where `g` stands for the parent's `this.generator`. -/
def filterGen (g : GenAt σ T) (pred : T → Bool) : GenAt σ T :=
  fun next s => g (fun x s => if pred x then next x s else s) s

/-- Producer built by `map(mapFn)`:
`(next) => { this.generator((x) => { next(mapFn(x)); }); }`. -/
def mapGen (g : GenAt σ T) (mapFn : T → U) : GenAt σ U :=
  fun next s => g (fun x s => next (mapFn x) s) s

/-- Producer built by `reduce(fn, initialValue)`:
`(next) => { let acc = initialValue; this.generator((x) => { acc = fn(acc, x); next(acc); }); }`.
The closure-local cell `acc` is modelled as an extra world component,
initialised to `initialValue` at each run of this producer; the parent
generator `g` is taken at the enlarged world `σ × U`. -/
def reduceGen (g : GenAt (σ × U) T) (fn : U → T → U) (initialValue : U) : GenAt σ U :=
  fun next s =>
    (g (fun x p => let a := fn p.2 x; (next a p.1, a)) (s, initialValue)).1

/-- Producer built by `JAStream.merge(...streams)`:
`(next) => { streams.forEach((stream) => { stream.subscribe(next); }); }`. -/
def mergeGen (streams : List (JAStream σ T)) : GenAt σ T :=
  fun next s => streams.foldl (fun s stream => stream.subscribe next s) s

/-- Producer built by `withLatestFrom(otherStream)` (`src/index.ts` lines
104-114):
`(next) => { let latest; otherStream.subscribe((x) => latest = x); this.generator((y) => next([this.last, latest])); }`.
The closure-local cell `latest` (initially `undefined`, hence `none`) is an
extra world component; `otherStream` and the parent generator act on the
enlarged world `σ × Option U`.  `thisGet` is the lens reading this
instance's own fields (for `this.last`). -/
def withLatestFromGen (thisGen : GenAt (σ × Option U) T) (thisGet : σ → StreamState T)
    (otherStream : JAStream (σ × Option U) U) : GenAt σ (Option T × Option U) :=
  fun next s =>
    let p := otherStream.subscribe (fun x p => (p.1, some x)) (s, (none : Option U))
    (thisGen (fun _y p => (next ((thisGet p.1).last, p.2) p.1, p.2)) p).1

/-- Folding the per-emission field update over a list of delivered values:
the field record an instance ends with after its subscription machinery has
seen exactly the emissions `xs`. -/
def emitFoldState (ss : StreamState T) (xs : List T) : StreamState T :=
  xs.foldl emitUpdate ss

/-! ### Worlds used by the claims

Each claim instantiates the embedding at a concrete world: a record holding
the field records of the instances involved plus the list of values the
external listener has been called with (in call order). -/

/-- World with a single stream instance and a listener log of `U`-records. -/
structure World1 (T U : Type) where
  st : StreamState T
  out : List U

/-- The single instance of `World1`, wrapping a given producer. -/
def stream1 (g : GenAt (World1 T U) T) : JAStream (World1 T U) T :=
  { gen := g, get := fun s => s.st, set := fun ss s => { s with st := ss } }

/-- A listener that records each received value (models a test listener
observing the emissions). -/
def collect : T → World1 T T → World1 T T :=
  fun x s => { s with out := s.out ++ [x] }

/-- A listener that records, for each received value, the subscribed
instance's `last` and `buffer` fields as they stand at the moment the
listener is invoked. -/
def observer : T → World1 T (T × Option T × List T) → World1 T (T × Option T × List T) :=
  fun x s => { s with out := s.out ++ [(x, s.st.last, s.st.buffer)] }

/-- Running folds of a reducer over a sequence: the values `reduce` emits,
one per input, seed not included (the property statement the spec gives for
`reduce`). -/
def runningFolds (fn : U → T → U) (v : U) : List T → List U
  | [] => []
  | x :: xs => fn v x :: runningFolds fn (fn v x) xs

/-! ### Basic lemmas about the embedding -/

theorem foldl_collect_emit (S : List T) :
    ∀ w : World1 T T,
      List.foldl (fun s x => collect x { s with st := emitUpdate s.st x }) w S
        = { st := emitFoldState w.st S, out := w.out ++ S } := by
  induction S with
  | nil =>
      intro w
      simp [emitFoldState]
  | cons x xs ih =>
      intro w
      simp only [List.foldl_cons]
      rw [ih]
      simp [collect, emitFoldState]

/-- Running `subscribe` with a collecting listener on a stream built
`from S`: the instance's fields see exactly the emissions `S`, and the
listener log is extended by `S` itself, in order. -/
theorem run_from_collect (S : List T) (w : World1 T T) :
    (stream1 (fromGen S)).subscribe collect w
      = { st := emitFoldState w.st S, out := w.out ++ S } :=
  foldl_collect_emit S w

/-- `filter`'s producer over `from S` behaves exactly like the producer of
`from (S.filter pred)`, at every world and callback. -/
theorem filterGen_fromGen (S : List T) (pred : T → Bool) :
    ∀ (next : T → σ → σ) (s : σ),
      filterGen (fromGen S) pred next s = fromGen (S.filter pred) next s := by
  induction S with
  | nil => intro next s; rfl
  | cons x xs ih =>
      intro next s
      by_cases h : pred x = true
      · simp only [filterGen, fromGen, List.foldl_cons, List.filter_cons, h, if_pos]
        exact ih next (next x s)
      · simp only [filterGen, fromGen, List.foldl_cons, List.filter_cons, h, if_neg,
          Bool.false_eq_true, if_false]
        exact ih next s

/-- `reduce`'s producer over `from S` behaves exactly like the producer of
`from (runningFolds fn v S)`, at every world and callback. -/
theorem reduceGen_fromGen (S : List T) (fn : U → T → U) :
    ∀ (v : U) (next : U → σ → σ) (s : σ),
      reduceGen (fromGen S) fn v next s = fromGen (runningFolds fn v S) next s := by
  induction S with
  | nil => intro v next s; rfl
  | cons x xs ih =>
      intro v next s
      simp only [reduceGen, fromGen, List.foldl_cons, runningFolds]
      exact ih (fn v x) next (next (fn v x) s)

theorem scanl_eq_head_tail (fn : U → T → U) (v : U) (S : List T) :
    List.scanl fn v S = v :: (List.scanl fn v S).tail := by
  cases S <;> simp [List.scanl]

theorem runningFolds_eq_scanl_tail (fn : U → T → U) (v : U) (S : List T) :
    runningFolds fn v S = (List.scanl fn v S).tail := by
  induction S generalizing v with
  | nil => simp [runningFolds, List.scanl]
  | cons x xs ih =>
      simp only [runningFolds, List.scanl, List.tail_cons]
      rw [ih (fn v x), ← scanl_eq_head_tail]

theorem runningFolds_length (fn : U → T → U) (v : U) (S : List T) :
    (runningFolds fn v S).length = S.length := by
  induction S generalizing v with
  | nil => rfl
  | cons x xs ih => simp [runningFolds, ih]

theorem jsSliceLast_zero (l : List α) : jsSliceLast l 0 = l := by
  simp [jsSliceLast]

/-- Truncating, appending more values and truncating again is the same as
truncating the full concatenation: the per-emission `slice` keeps exactly
the information needed for later emissions. -/
theorem jsSliceLast_append (L M : List α) (n : Nat) :
    jsSliceLast (jsSliceLast L n ++ M) n = jsSliceLast (L ++ M) n := by
  by_cases hn : n = 0
  · subst hn; simp [jsSliceLast]
  · simp only [jsSliceLast, if_neg hn]
    by_cases hL : L.length ≤ n
    · rw [Nat.sub_eq_zero_of_le hL, List.drop_zero]
    · have hlen : (L.drop (L.length - n)).length = n := by
        rw [List.length_drop]; omega
      have e1 : (L.drop (L.length - n) ++ M).length - n = M.length := by
        rw [List.length_append, hlen]; omega
      have e2 : (L ++ M).length - n = (L.length - n) + M.length := by
        rw [List.length_append]; omega
      rw [e1, e2, ← List.drop_drop,
        List.drop_append_of_le_length (by omega : L.length - n ≤ L.length)]

/-- After pushing `x` and truncating, the most recent element of the buffer
is `x`, for every capacity (including `0`). -/
theorem jsSliceLast_concat_getLast (l : List α) (x : α) (n : Nat) :
    (jsSliceLast (l ++ [x]) n).getLast? = some x := by
  by_cases hn : n = 0
  · subst hn; simp [jsSliceLast]
  · simp only [jsSliceLast, if_neg hn]
    have h : (l ++ [x]).length - n ≤ l.length := by
      rw [List.length_append]; simp; omega
    rw [List.drop_append_of_le_length h, List.getLast?_concat]

theorem emitUpdate_last (ss : StreamState T) (x : T) :
    (emitUpdate ss x).last = some x := by
  unfold emitUpdate
  dsimp only
  split <;> rfl

theorem emitUpdate_useBuffer (ss : StreamState T) (x : T) :
    (emitUpdate ss x).useBuffer = ss.useBuffer := by
  unfold emitUpdate
  dsimp only
  split <;> rfl

theorem emitUpdate_bufferSize (ss : StreamState T) (x : T) :
    (emitUpdate ss x).bufferSize = ss.bufferSize := by
  unfold emitUpdate
  dsimp only
  split <;> rfl

theorem emitUpdate_buffer_of_useBuffer (ss : StreamState T) (x : T)
    (h : ss.useBuffer = true) :
    (emitUpdate ss x).buffer = jsSliceLast (ss.buffer ++ [x]) ss.bufferSize := by
  simp [emitUpdate, h]

theorem emitFoldState_nil (ss : StreamState T) : emitFoldState ss [] = ss := rfl

theorem emitFoldState_cons (ss : StreamState T) (x : T) (xs : List T) :
    emitFoldState ss (x :: xs) = emitFoldState (emitUpdate ss x) xs := rfl

theorem emitFoldState_useBuffer (S : List T) :
    ∀ ss : StreamState T, (emitFoldState ss S).useBuffer = ss.useBuffer := by
  induction S with
  | nil => intro ss; rfl
  | cons x xs ih =>
      intro ss
      rw [emitFoldState_cons, ih, emitUpdate_useBuffer]

theorem emitFoldState_bufferSize (S : List T) :
    ∀ ss : StreamState T, (emitFoldState ss S).bufferSize = ss.bufferSize := by
  induction S with
  | nil => intro ss; rfl
  | cons x xs ih =>
      intro ss
      rw [emitFoldState_cons, ih, emitUpdate_bufferSize]

theorem jsSliceLast_idem (L : List α) (n : Nat) :
    jsSliceLast (jsSliceLast L n) n = jsSliceLast L n := by
  have h := jsSliceLast_append L [] n
  simpa using h

/-- Closed form of the buffer after a sequence of emissions, when buffering
is enabled and the starting buffer is already truncated (as every reachable
buffer is, the initial one being `[]`): the buffer is the JS
`slice(-bufferSize)` truncation of everything ever pushed. -/
theorem emitFoldState_buffer (S : List T) :
    ∀ ss : StreamState T, ss.useBuffer = true →
      jsSliceLast ss.buffer ss.bufferSize = ss.buffer →
      (emitFoldState ss S).buffer = jsSliceLast (ss.buffer ++ S) ss.bufferSize := by
  induction S with
  | nil =>
      intro ss _ hstab
      rw [emitFoldState_nil, List.append_nil, hstab]
  | cons x xs ih =>
      intro ss h hstab
      have hub : (emitUpdate ss x).useBuffer = true := by
        rw [emitUpdate_useBuffer]; exact h
      have hst : jsSliceLast (emitUpdate ss x).buffer (emitUpdate ss x).bufferSize
          = (emitUpdate ss x).buffer := by
        rw [emitUpdate_buffer_of_useBuffer _ _ h, emitUpdate_bufferSize, jsSliceLast_idem]
      rw [emitFoldState_cons, ih _ hub hst, emitUpdate_bufferSize,
        emitUpdate_buffer_of_useBuffer _ _ h, jsSliceLast_append]
      simp

theorem emitFoldState_last (S : List T) :
    ∀ ss : StreamState T, S ≠ [] → (emitFoldState ss S).last = S.getLast? := by
  induction S with
  | nil => intro ss h; exact absurd rfl h
  | cons x xs ih =>
      intro ss _
      cases xs with
      | nil => rw [emitFoldState_cons, emitFoldState_nil, emitUpdate_last]; rfl
      | cons y ys =>
          rw [emitFoldState_cons, ih _ (by simp), List.getLast?_cons_cons]

/-! ### Claims -/

/-- Constructor options enabling the buffer with capacity `k`. -/
def bufOptions (k : Nat) : Option JAStreamOptions :=
  some { useBuffer := true, bufferSize := k }

/-- Freshly construct a stream from `S` with the given options and
subscribe a collecting listener to it once. -/
def runFromFresh (opts : Option JAStreamOptions) (S : List T) : World1 T T :=
  (stream1 (fromGen S)).subscribe collect { st := initState opts, out := [] }

/-- The per-emission records seen by `observer`: each emitted value paired
with the instance's `last` and `buffer` fields at listener-call time. -/
def obsList (ss : StreamState T) : List T → List (T × Option T × List T)
  | [] => []
  | x :: xs =>
      (x, (emitUpdate ss x).last, (emitUpdate ss x).buffer) :: obsList (emitUpdate ss x) xs

theorem foldl_observer_emit (S : List T) :
    ∀ w : World1 T (T × Option T × List T),
      List.foldl (fun s x => observer x { s with st := emitUpdate s.st x }) w S
        = { st := emitFoldState w.st S, out := w.out ++ obsList w.st S } := by
  induction S with
  | nil =>
      intro w
      simp [emitFoldState, obsList]
  | cons x xs ih =>
      intro w
      simp only [List.foldl_cons]
      rw [ih]
      simp [observer, emitFoldState, obsList]

theorem run_from_observer (S : List T) (w : World1 T (T × Option T × List T)) :
    (stream1 (fromGen S)).subscribe observer w
      = { st := emitFoldState w.st S, out := w.out ++ obsList w.st S } :=
  foldl_observer_emit S w

theorem obsList_spec (S : List T) :
    ∀ (ss : StreamState T) (r : T × Option T × List T), r ∈ obsList ss S →
      r.2.1 = some r.1 ∧ (ss.useBuffer = true → r.2.2.getLast? = some r.1) := by
  induction S with
  | nil => intro ss r hr; simp [obsList] at hr
  | cons x xs ih =>
      intro ss r hr
      rw [obsList] at hr
      rcases List.mem_cons.mp hr with he | ht
      · subst he
        refine ⟨emitUpdate_last ss x, fun hub => ?_⟩
        rw [emitUpdate_buffer_of_useBuffer _ _ hub, jsSliceLast_concat_getLast]
      · have h := ih (emitUpdate ss x) r ht
        exact ⟨h.1, fun hub => h.2 (by rw [emitUpdate_useBuffer]; exact hub)⟩

/-- C1: subscribing to `from(S)` invokes the listener exactly `len S` times
with the elements of `S` in original order, and each further subscribe on
the same stream instance independently replays the full sequence, so two
subscribes double the listener call count. -/
theorem from_subscribe_replays (S : List T) (w : World1 T T) :
    ((stream1 (fromGen S)).subscribe collect w).out = w.out ++ S ∧
    ((stream1 (fromGen S)).subscribe collect w).out.length = w.out.length + S.length ∧
    ((stream1 (fromGen S)).subscribe collect
        ((stream1 (fromGen S)).subscribe collect w)).out = w.out ++ S ++ S := by
  refine ⟨?_, ?_, ?_⟩
  · rw [run_from_collect]
  · rw [run_from_collect]
    simp
  · rw [run_from_collect, run_from_collect]

/-- C6: subscribing to `filter(pred)` over `from(S)` invokes the listener
exactly once per element of `S` satisfying `pred`, with those elements in
their original relative order: the listener log is extended by the
subsequence `S.filter pred`. -/
theorem filter_subscribe_emits_subsequence (S : List T) (pred : T → Bool) (w : World1 T T) :
    ((stream1 (filterGen (fromGen S) pred)).subscribe collect w).out
      = w.out ++ S.filter pred := by
  have h : (stream1 (filterGen (fromGen S) pred)).subscribe collect w
      = (stream1 (fromGen (S.filter pred))).subscribe collect w := by
    simp only [JAStream.subscribe, stream1]
    rw [filterGen_fromGen]
  rw [h, run_from_collect]

/-- C2: subscribing to `reduce(fn, v)` over `from(S)` invokes the listener
exactly `len S` times with the running folds (the seed itself is never
emitted), and a second subscribe on the same returned stream starts from a
fresh accumulator equal to `v`: the log after two subscribes is the same
fold sequence twice. -/
theorem reduce_subscribe_running_folds (fn : U → T → U) (v : U) (S : List T)
    (w : World1 U U) :
    ((stream1 (reduceGen (fromGen S) fn v)).subscribe collect w).out
      = w.out ++ runningFolds fn v S ∧
    runningFolds fn v S = (List.scanl fn v S).tail ∧
    (runningFolds fn v S).length = S.length ∧
    ((stream1 (reduceGen (fromGen S) fn v)).subscribe collect
        ((stream1 (reduceGen (fromGen S) fn v)).subscribe collect w)).out
      = w.out ++ runningFolds fn v S ++ runningFolds fn v S := by
  have h : ∀ w' : World1 U U,
      (stream1 (reduceGen (fromGen S) fn v)).subscribe collect w'
        = (stream1 (fromGen (runningFolds fn v S))).subscribe collect w' := by
    intro w'
    simp only [JAStream.subscribe, stream1]
    rw [reduceGen_fromGen]
  refine ⟨?_, runningFolds_eq_scanl_tail fn v S, runningFolds_length fn v S, ?_⟩
  · rw [h, run_from_collect]
  · rw [h, h, run_from_collect, run_from_collect]

/-- C3: with buffering enabled and capacity `k ≥ 1`, after the emissions
`S` delivered through one subscribe the buffer is exactly the most recent
`min (len S) k` emitted values in emission order (the suffix of `S`), its
length never exceeds `k`, and `getBuffer` returns it. -/
theorem buffer_bounded_most_recent (S : List T) (k : Nat) (hk : 1 ≤ k) :
    getBuffer (runFromFresh (bufOptions k) S).st = Except.ok (S.drop (S.length - k)) ∧
    (runFromFresh (bufOptions k) S).st.buffer.length = min S.length k ∧
    (runFromFresh (bufOptions k) S).st.buffer.length ≤ k := by
  have hknz : k ≠ 0 := by omega
  have hst : (runFromFresh (bufOptions k) S).st
      = emitFoldState (initState (bufOptions k)) S := by
    unfold runFromFresh
    rw [run_from_collect]
  have hbuf : (emitFoldState (initState (T := T) (bufOptions k)) S).buffer
      = S.drop (S.length - k) := by
    rw [emitFoldState_buffer S (initState (bufOptions k)) rfl (by simp [jsSliceLast, initState, bufOptions])]
    simp [initState, bufOptions, jsSliceLast, hknz]
  have hub : (emitFoldState (initState (T := T) (bufOptions k)) S).useBuffer = true := by
    rw [emitFoldState_useBuffer]; rfl
  refine ⟨?_, ?_, ?_⟩
  · rw [hst]
    simp only [getBuffer, hub, if_pos, hbuf]
  · rw [hst, hbuf, List.length_drop]
    omega
  · rw [hst, hbuf, List.length_drop]
    omega

/-- Witness for C3, doubling as the spec's example: capacity `3`, emissions
`1..15`, `getBuffer` returns `[13, 14, 15]`. -/
theorem buffer_bounded_most_recent_witness :
    (1 ≤ 3) ∧
    getBuffer (runFromFresh (bufOptions 3)
        [1, 2, 3, 4, 5, 6, 7, 8, 9, 10, 11, 12, 13, 14, 15]).st
      = Except.ok [(13 : Nat), 14, 15] := by
  refine ⟨by decide, ?_⟩
  have h := (buffer_bounded_most_recent
    [(1 : Nat), 2, 3, 4, 5, 6, 7, 8, 9, 10, 11, 12, 13, 14, 15] 3 (by decide)).1
  exact h.trans (by rfl)

/-- C4: `getBuffer` raises the configuration error exactly when `useBuffer`
is not set — which, at construction, is the case exactly when the options
are absent or carry `useBuffer = false`; when buffering is enabled it
returns the buffer (the empty list before any emission). -/
theorem getBuffer_config_error_iff (ss : StreamState T) :
    ((∃ msg, getBuffer ss = Except.error msg) ↔ ss.useBuffer = false) ∧
    (ss.useBuffer = true → getBuffer ss = Except.ok ss.buffer) ∧
    (∀ opts : Option JAStreamOptions,
      (initState (T := T) opts).useBuffer = opts.elim false (fun o => o.useBuffer) ∧
      (initState (T := T) opts).buffer = []) := by
  refine ⟨?_, ?_, ?_⟩
  · cases h : ss.useBuffer <;> simp [getBuffer, h]
  · intro h
    simp [getBuffer, h]
  · intro opts
    cases opts <;> simp [initState, Option.elim]

/-- Witness for C4: with options absent the call errors; with
`useBuffer = true` it returns the (empty) buffer. -/
theorem getBuffer_config_error_iff_witness :
    (∃ msg, getBuffer (initState (T := Nat) none) = Except.error msg) ∧
    getBuffer (initState (T := Nat) (bufOptions 3)) = Except.ok [] := by
  constructor
  · exact (getBuffer_config_error_iff (initState (T := Nat) none)).1.mpr rfl
  · exact ((getBuffer_config_error_iff (initState (T := Nat) (bufOptions 3))).2.1 rfl).trans rfl

/-- C7: during a subscribe, the listener is invoked only after the
instance's state update for the current emission: every record `(x, l, b)`
taken by a listener that inspects `last` and `buffer` at call time has
`l = some x`, and, when buffering is enabled, the buffer it sees ends in
`x` (state updates happen-before listener notification). -/
theorem listener_observes_updated_state (S : List T) (ss0 : StreamState T)
    (r : T × Option T × List T)
    (hr : r ∈ ((stream1 (fromGen S)).subscribe observer { st := ss0, out := [] }).out) :
    r.2.1 = some r.1 ∧ (ss0.useBuffer = true → r.2.2.getLast? = some r.1) := by
  rw [run_from_observer] at hr
  simp only [List.nil_append] at hr
  exact obsList_spec S ss0 r hr

/-- Witness for C7: with buffer capacity `3` and emissions `[1, 2]`, the
record for the second emission shows `last = some 2` and a buffer ending
in `2` at listener-call time. -/
theorem listener_observes_updated_state_witness :
    (((2 : Nat), (some 2 : Option Nat), ([1, 2] : List Nat)) ∈
        ((stream1 (fromGen [1, 2])).subscribe observer
          { st := initState (bufOptions 3), out := [] }).out) ∧
    ((some 2 : Option Nat) = some 2 ∧
      ((initState (T := Nat) (bufOptions 3)).useBuffer = true →
        ([1, 2] : List Nat).getLast? = some 2)) := by
  have hmem : ((2 : Nat), (some 2 : Option Nat), ([1, 2] : List Nat)) ∈
      ((stream1 (fromGen [1, 2])).subscribe observer
        { st := initState (bufOptions 3), out := [] }).out := by decide
  exact ⟨hmem, listener_observes_updated_state [1, 2] (initState (bufOptions 3)) _ hmem⟩

/-- C10: with buffering enabled and `bufferSize = 0`, `slice(-0)` keeps the
whole array, so the buffer is never truncated: after the emissions `S`,
`getBuffer` returns all of `S` in order. -/
theorem bufferSize_zero_never_truncates (S : List T) :
    (runFromFresh (bufOptions 0) S).st.buffer = S ∧
    getBuffer (runFromFresh (bufOptions 0) S).st = Except.ok S ∧
    (∀ l : List T, jsSliceLast l 0 = l) := by
  have hst : (runFromFresh (bufOptions 0) S).st
      = emitFoldState (initState (bufOptions 0)) S := by
    unfold runFromFresh
    rw [run_from_collect]
  have hbuf : (emitFoldState (initState (T := T) (bufOptions 0)) S).buffer = S := by
    rw [emitFoldState_buffer S (initState (bufOptions 0)) rfl (by simp [jsSliceLast, initState, bufOptions])]
    simp [initState, bufOptions, jsSliceLast]
  have hub : (emitFoldState (initState (T := T) (bufOptions 0)) S).useBuffer = true := by
    rw [emitFoldState_useBuffer]; rfl
  refine ⟨by rw [hst, hbuf], ?_, jsSliceLast_zero⟩
  rw [hst]
  simp only [getBuffer, hub, if_pos, hbuf]

/-! ### World for `merge` -/

/-- World for `merge`: an indexed family of input-stream instances (the
`i`-th input's field record is `inputs i`), the merged instance's own field
record, and the listener log. -/
structure WorldN (T : Type) where
  inputs : Nat → StreamState T
  m : StreamState T
  out : List T

/-- The `i`-th input instance, built `from L`, with its fields at index
`i` of the world. -/
def inputAt (i : Nat) (L : List T) : JAStream (WorldN T) T where
  gen := fromGen L
  get := fun s => s.inputs i
  set := fun ss s => { s with inputs := Function.update s.inputs i ss }

/-- A listener that records each received value of the merged stream. -/
def collectN : T → WorldN T → WorldN T :=
  fun x s => { s with out := s.out ++ [x] }

/-- The callback the merged stream's producer receives when the merged
stream is subscribed with `collectN`: the merged instance's own field
update followed by the listener. -/
def mergedCb : T → WorldN T → WorldN T :=
  fun x s => collectN x { s with m := emitUpdate s.m x }

/-- The stream `JAStream.merge(stream₀, …)` built over the input streams
`from Ls[0], from Ls[1], …`. -/
def mergedStream (Ls : List (List T)) : JAStream (WorldN T) T where
  gen := mergeGen ((Ls.enum).map fun p => inputAt p.1 p.2)
  get := fun s => s.m
  set := fun ss s => { s with m := ss }

/-- Subscribe once to the merged stream with a collecting listener. -/
def runMergeN (Ls : List (List T)) (w : WorldN T) : WorldN T :=
  (mergedStream Ls).subscribe collectN w

theorem foldl_input_emit (i : Nat) (L : List T) :
    ∀ w : WorldN T,
      List.foldl
          (fun s x =>
            mergedCb x { s with inputs := Function.update s.inputs i (emitUpdate (s.inputs i) x) })
          w L
        = { inputs := Function.update w.inputs i (emitFoldState (w.inputs i) L),
            m := emitFoldState w.m L,
            out := w.out ++ L } := by
  induction L with
  | nil =>
      intro w
      simp [emitFoldState, Function.update_eq_self]
  | cons x xs ih =>
      intro w
      simp only [List.foldl_cons]
      rw [ih]
      simp [mergedCb, collectN, emitFoldState_cons, Function.update_same,
        Function.update_idem, List.append_assoc]

theorem inputAt_subscribe (i : Nat) (L : List T) (w : WorldN T) :
    (inputAt i L).subscribe mergedCb w
      = { inputs := Function.update w.inputs i (emitFoldState (w.inputs i) L),
          m := emitFoldState w.m L,
          out := w.out ++ L } :=
  foldl_input_emit i L w

theorem mergeFold_spec (Ls : List (List T)) :
    ∀ (k : Nat) (w : WorldN T),
      (List.foldl (fun s stream => stream.subscribe mergedCb s) w
          ((List.enumFrom k Ls).map fun p => inputAt p.1 p.2)).m
        = emitFoldState w.m Ls.flatten ∧
      (List.foldl (fun s stream => stream.subscribe mergedCb s) w
          ((List.enumFrom k Ls).map fun p => inputAt p.1 p.2)).out
        = w.out ++ Ls.flatten ∧
      (∀ t, t < Ls.length →
        (List.foldl (fun s stream => stream.subscribe mergedCb s) w
            ((List.enumFrom k Ls).map fun p => inputAt p.1 p.2)).inputs (k + t)
          = emitFoldState (w.inputs (k + t)) (Ls.getD t [])) ∧
      (∀ j, j < k ∨ k + Ls.length ≤ j →
        (List.foldl (fun s stream => stream.subscribe mergedCb s) w
            ((List.enumFrom k Ls).map fun p => inputAt p.1 p.2)).inputs j
          = w.inputs j) := by
  induction Ls with
  | nil =>
      intro k w
      refine ⟨by simp [emitFoldState], by simp, fun t ht => absurd ht (by simp),
        fun j _ => rfl⟩
  | cons L Ls ih =>
      intro k w
      have hw1 := inputAt_subscribe k L w
      simp only [List.enumFrom, List.map_cons, List.foldl_cons, hw1]
      set w1 : WorldN T :=
        { inputs := Function.update w.inputs k (emitFoldState (w.inputs k) L),
          m := emitFoldState w.m L,
          out := w.out ++ L } with hw1def
      obtain ⟨ihm, ihout, ihin, ihfr⟩ := ih (k + 1) w1
      refine ⟨?_, ?_, ?_, ?_⟩
      · rw [ihm]
        simp [hw1def, List.flatten_cons, emitFoldState, List.foldl_append]
      · rw [ihout]
        simp [hw1def, List.flatten_cons, List.append_assoc]
      · intro t ht
        cases t with
        | zero =>
            show (List.foldl (fun s stream => stream.subscribe mergedCb s) w1
                ((List.enumFrom (k + 1) Ls).map fun p => inputAt p.1 p.2)).inputs k
              = emitFoldState (w.inputs k) L
            rw [ihfr k (by omega), hw1def]
            simp [Function.update_same]
        | succ t =>
            have h := ihin t (by simpa using ht)
            rw [show k + (t + 1) = k + 1 + t by omega, h]
            simp only [hw1def, List.getD_cons_succ]
            rw [Function.update_noteq (by omega : k + 1 + t ≠ k)]
      · intro j hj
        rw [List.length_cons] at hj
        rw [ihfr j (by omega), hw1def]
        simp only []
        rw [Function.update_noteq (by omega : j ≠ k)]

theorem runMergeN_spec (Ls : List (List T)) (w : WorldN T) :
    (runMergeN Ls w).m = emitFoldState w.m Ls.flatten ∧
    (runMergeN Ls w).out = w.out ++ Ls.flatten ∧
    (∀ t, t < Ls.length →
      (runMergeN Ls w).inputs t = emitFoldState (w.inputs t) (Ls.getD t [])) ∧
    (∀ j, Ls.length ≤ j → (runMergeN Ls w).inputs j = w.inputs j) := by
  have h := mergeFold_spec Ls 0 w
  have hrun : runMergeN Ls w
      = List.foldl (fun s stream => stream.subscribe mergedCb s) w
          ((List.enumFrom 0 Ls).map fun p => inputAt p.1 p.2) := rfl
  obtain ⟨hm, hout, hin, hfr⟩ := h
  exact ⟨by rw [hrun, hm], by rw [hrun, hout],
    fun t ht => by rw [hrun]; simpa using hin t ht,
    fun j hj => by rw [hrun]; exact hfr j (by omega)⟩

/-- The empty fresh world for `merge` runs: every instance fresh and
option-less, nothing logged. -/
def freshWorldN : WorldN T :=
  { inputs := fun _ => {}, m := {}, out := [] }

/-- C5: subscribing once to `merge` over synchronously exhaustive input
streams (`from Ls[i]`) delivers all values of input `i`, in input `i`'s own
order, before any value of input `i + 1`: the log is the concatenation of
the input sequences.  In particular `merge(from [1,2], from ['a','b'])`
invokes the listener exactly 4 times with `1, 2, 'a', 'b'` in order. -/
theorem merge_emits_inputs_in_order (Ls : List (List T)) (w : WorldN T) :
    (runMergeN Ls w).out = w.out ++ Ls.flatten ∧
    (runMergeN [[Sum.inl 1, Sum.inl 2], [Sum.inr "a", Sum.inr "b"]]
        (freshWorldN (T := Sum Nat String))).out
      = [Sum.inl 1, Sum.inl 2, Sum.inr "a", Sum.inr "b"] ∧
    (runMergeN [[Sum.inl 1, Sum.inl 2], [Sum.inr "a", Sum.inr "b"]]
        (freshWorldN (T := Sum Nat String))).out.length = 4 := by
  refine ⟨(runMergeN_spec Ls w).2.1, ?_, ?_⟩ <;> rfl

/-- C9: subscribing once to the merged stream mutates each input stream's
own per-instance state, because `merge`'s producer calls `subscribe` on
every input: afterwards input `t`'s fields are exactly as if it had run its
own subscription over its sequence — its `getLast` is its own most recent
value, its buffer (when enabled) took its emissions — while the listener log
still shows every value. -/
theorem merge_mutates_input_streams (Ls : List (List T)) (w : WorldN T) :
    (∀ t, t < Ls.length →
      (runMergeN Ls w).inputs t = emitFoldState (w.inputs t) (Ls.getD t [])) ∧
    (∀ t, t < Ls.length → Ls.getD t [] ≠ [] →
      getLast ((runMergeN Ls w).inputs t) = (Ls.getD t []).getLast?) ∧
    (∀ t, t < Ls.length → (w.inputs t).useBuffer = true →
      jsSliceLast (w.inputs t).buffer (w.inputs t).bufferSize = (w.inputs t).buffer →
      ((runMergeN Ls w).inputs t).buffer
        = jsSliceLast ((w.inputs t).buffer ++ Ls.getD t []) (w.inputs t).bufferSize) ∧
    (runMergeN Ls w).out = w.out ++ Ls.flatten := by
  obtain ⟨_, hout, hin, _⟩ := runMergeN_spec Ls w
  refine ⟨hin, ?_, ?_, hout⟩
  · intro t ht hne
    rw [getLast, hin t ht, emitFoldState_last _ _ hne]
  · intro t ht hub hstab
    rw [hin t ht]
    have hb := emitFoldState_buffer (Ls.getD t []) (w.inputs t) hub hstab
    rw [hb]

/-- Witness for C9: merging `from [1,2]` and `from [3,4]` over fresh
buffered inputs; afterwards input 0's `getLast` is `2` and its buffer is
`[1, 2]`, and the merged log is `[1, 2, 3, 4]`. -/
theorem merge_mutates_input_streams_witness :
    (0 < 2) ∧ (([1, 2] : List Nat) ≠ []) ∧
    getLast ((runMergeN [[1, 2], [3, 4]]
        { inputs := fun _ => initState (bufOptions 3), m := {}, out := [] }).inputs 0)
      = some 2 ∧
    ((runMergeN [[1, 2], [3, 4]]
        { inputs := fun _ => initState (bufOptions 3), m := {}, out := [] }).inputs 0).buffer
      = [1, 2] ∧
    (runMergeN [[1, 2], [3, 4]]
        { inputs := fun _ => initState (bufOptions 3), m := {}, out := [] }).out
      = [1, 2, 3, 4] := by
  have h := merge_mutates_input_streams [[1, 2], [3, 4]]
    ({ inputs := fun _ => initState (bufOptions 3), m := {}, out := [] } : WorldN Nat)
  refine ⟨by decide, by decide, ?_, ?_, ?_⟩
  · exact (h.2.1 0 (by decide) (by decide)).trans rfl
  · exact (h.2.2.1 0 (by decide) rfl rfl).trans rfl
  · exact h.2.2.2.trans rfl

/-! ### World for `withLatestFrom` -/

/-- World for `withLatestFrom`: field records of the primary instance, the
other instance and the combined instance, plus the listener log of emitted
pairs. -/
structure WorldWL (T U : Type) where
  pst : StreamState T
  ost : StreamState U
  wst : StreamState (Option T × Option U)
  out : List (Option T × Option U)

/-- The other stream, built `from B`; its producer and lens act on the
world enlarged with the `latest` cell. -/
def otherInstWL (B : List U) : JAStream (WorldWL T U × Option U) U where
  gen := fromGen B
  get := fun p => p.1.ost
  set := fun ss p => ({ p.1 with ost := ss }, p.2)

/-- `thisStream.withLatestFrom(otherStream)` with the primary stream built
`from A` and the other built `from B`. -/
def wlStream (A : List T) (B : List U) : JAStream (WorldWL T U) (Option T × Option U) where
  gen := withLatestFromGen (fromGen A) (fun s => s.pst) (otherInstWL B)
  get := fun s => s.wst
  set := fun ss s => { s with wst := ss }

/-- A listener that records each received pair. -/
def collectWL : (Option T × Option U) → WorldWL T U → WorldWL T U :=
  fun v s => { s with out := s.out ++ [v] }

/-- Subscribe once to the combined stream with a collecting listener. -/
def runWL (A : List T) (B : List U) (w : WorldWL T U) : WorldWL T U :=
  (wlStream A B).subscribe collectWL w

theorem foldl_some_getLast (B : List U) :
    ∀ a : U, B.foldl (fun _ x => some x) (some a) = (a :: B).getLast? := by
  induction B with
  | nil => intro a; rfl
  | cons x xs ih =>
      intro a
      simp only [List.foldl_cons]
      rw [ih x, List.getLast?_cons_cons]

/-- The `latest` cell after the other stream's internal subscription: the
last value of `B`, or still `none` when `B` is empty. -/
theorem foldl_some_last (B : List U) :
    B.foldl (fun _ x => some x) none = B.getLast? := by
  cases B with
  | nil => rfl
  | cons x xs =>
      simp only [List.foldl_cons]
      exact foldl_some_getLast xs x

theorem foldl_otherWL (B : List U) :
    ∀ (w : WorldWL T U) (l : Option U),
      List.foldl
          (fun (p : WorldWL T U × Option U) x =>
            (({ p.1 with ost := emitUpdate p.1.ost x } : WorldWL T U), some x))
          (w, l) B
        = ({ w with ost := emitFoldState w.ost B }, B.foldl (fun _ x => some x) l) := by
  induction B with
  | nil => intro w l; simp [emitFoldState]
  | cons x xs ih =>
      intro w l
      simp only [List.foldl_cons]
      rw [ih]
      simp [emitFoldState_cons]

/-- The internal subscription `otherStream.subscribe((x) => latest = x)`:
it updates the other instance's own fields with all of `B` and leaves the
`latest` cell holding the value of the last write. -/
theorem otherWL_subscribe (B : List U) (w : WorldWL T U) (l : Option U) :
    (otherInstWL (T := T) B).subscribe (fun x p => (p.1, some x)) (w, l)
      = ({ w with ost := emitFoldState w.ost B }, B.foldl (fun _ x => some x) l) :=
  foldl_otherWL B w l

theorem foldl_wl_primary (A : List T) :
    ∀ (w : WorldWL T U) (l : Option U),
      List.foldl
          (fun (p : WorldWL T U × Option U) (_y : T) =>
            (({ p.1 with wst := emitUpdate p.1.wst (p.1.pst.last, p.2), out := p.1.out ++ [(p.1.pst.last, p.2)] } : WorldWL T U), p.2))
          (w, l) A
        = ({ w with wst := emitFoldState w.wst (A.map fun _ => (w.pst.last, l)), out := w.out ++ A.map fun _ => (w.pst.last, l) }, l) := by
  induction A with
  | nil => intro w l; simp [emitFoldState]
  | cons y ys ih =>
      intro w l
      simp only [List.foldl_cons]
      rw [ih]
      simp [emitFoldState_cons, List.append_assoc]

/-- Full behaviour of one subscription to `withLatestFrom`: the other
stream is subscribed first (its fields take all of `B`), the primary
instance's fields are untouched (its generator is invoked directly, not
through its `subscribe`), and one pair per primary emission is logged,
pairing the primary's unchanged `last` with the latest tracked value of the
other stream. -/
theorem runWL_spec (A : List T) (B : List U) (w : WorldWL T U) :
    runWL A B w
      = { pst := w.pst,
          ost := emitFoldState w.ost B,
          wst := emitFoldState w.wst (A.map fun _ => (w.pst.last, B.getLast?)),
          out := w.out ++ A.map fun _ => (w.pst.last, B.getLast?) } := by
  have h1 : runWL A B w
      = (List.foldl
          (fun (p : WorldWL T U × Option U) (_y : T) =>
            (({ p.1 with wst := emitUpdate p.1.wst (p.1.pst.last, p.2), out := p.1.out ++ [(p.1.pst.last, p.2)] } : WorldWL T U), p.2))
          ((otherInstWL (T := T) B).subscribe (fun x p => (p.1, some x)) (w, none)) A).1 := rfl
  rw [h1, otherWL_subscribe, foldl_wl_primary, foldl_some_last]

/-- C8: subscribing to `withLatestFrom(otherStream)` first subscribes to
the other stream to track its latest value privately, then emits, for every
emission of the primary producer, the pair of the primary instance's
`last` as it stood before the emission (it is never updated during this
subscription, so it equals its pre-subscription value) and the other
stream's latest tracked value; when the other stream never emitted, the
second component is `none` (undefined). -/
theorem withLatestFrom_pairs_latest (A : List T) (B : List U) (w : WorldWL T U) :
    (runWL A B w).out = w.out ++ A.map (fun _ => (w.pst.last, B.getLast?)) ∧
    (runWL A B w).ost = emitFoldState w.ost B ∧
    (runWL A B w).pst = w.pst ∧
    (B = [] → ∀ pr ∈ (runWL A B w).out.drop w.out.length, pr.2 = none) := by
  rw [runWL_spec]
  refine ⟨rfl, rfl, rfl, ?_⟩
  intro hB pr hpr
  subst hB
  simp only [List.getLast?_nil, List.drop_left] at hpr
  obtain ⟨a, _, rfl⟩ := List.mem_map.mp hpr
  rfl

/-- The empty fresh world for `withLatestFrom` runs. -/
def wl0 : WorldWL Nat Nat :=
  { pst := {}, ost := {}, wst := {}, out := [] }

/-- Witness for C8: primary `from [7]`, other `from []` (never emits): the
single logged pair has an absent second component. -/
theorem withLatestFrom_pairs_latest_witness :
    (([] : List Nat) = []) ∧
    (((none : Option Nat), (none : Option Nat)) ∈
      (runWL [7] ([] : List Nat) wl0).out.drop wl0.out.length) ∧
    ((none : Option Nat), (none : Option Nat)).2 = none := by
  have hmem : ((none : Option Nat), (none : Option Nat)) ∈
      (runWL [7] ([] : List Nat) wl0).out.drop wl0.out.length := by decide
  exact ⟨rfl, hmem, (withLatestFrom_pairs_latest [7] [] wl0).2.2.2 rfl _ hmem⟩

end JustAStream
